import Mathlib

/-!
Shallow embedding of `src/streams/early_zip_readable_streams.ts`.

The file models two components:

* `earlyZipReadableStreams` — merged into the round model `roundAux`/`pull`
  together with the fuelled consumer loop `drain`.  A source stream is
  represented by the list of chunks its reader has not yet delivered; a call
  to `reader.read()` is the inspection of the head of that list (`none` is
  the `done: true` result).  Every observable action of the underlying source
  is recorded as an `Event`, so temporal claims become claims about the
  produced trace.  Cancellation of a reader may fail, exactly as
  `reader.cancel(reason)` may reject: the ambient behaviour of the readers is
  a function `CancelFn`, and `Promise.all` over the batch of cancellations is
  `promiseAll`.

* `LimitedTransformStream` — the counter state machine `ltTransform` for one
  `transform(chunk, controller)` call, and `ltRun` for feeding a whole list of
  chunks through the transform, mirroring the private `#read` field with an
  integer threaded through the recursion.
-/

/-- Observable actions performed by the merged stream on its sources and its
output controller: a read returning `some v` or `none` (done), an enqueue of a
value into the output, a cancellation of the reader at an index with a reason
string, a clean close of the output, and a rejection of the pull promise. -/
inductive Event (T : Type) where
  | read (i : Nat) (result : Option T)
  | enqueue (v : T)
  | cancel (i : Nat) (reason : String)
  | close
  | error (e : String)
  deriving DecidableEq

/-- Behaviour of `reader.cancel(reason)` for the reader at each index: the
result of awaiting the returned promise. -/
abbrev CancelFn := Nat → String → Except String Unit

/-- Result state of one pull invocation: the round ran to completion and the
stream stays active (`next`), the controller was closed (`closed`), or the
pull promise rejected with an error (`errored`). -/
inductive Outcome where
  | next
  | closed
  | errored (e : String)
  deriving DecidableEq

/-- Result of one `pull` call: the trace of events it performed, the updated
reader states, and the resulting stream outcome. -/
structure RoundResult (T : Type) where
  events : List (Event T)
  readers : List (List T)
  outcome : Outcome
  deriving DecidableEq

/-- The cancellation reason built in the template literal
`Stream at index ${i} ended`. -/
def endReason (i : Nat) : String :=
  "Stream at index " ++ toString i ++ " ended"

/-- The batch of cancel events issued by `readers.map((reader) =>
reader.cancel(reason))`: one cancellation per reader index, all issued before
any of them is awaited. -/
def cancelAllEvents (T : Type) (n : Nat) (reason : String) : List (Event T) :=
  (List.range n).map (fun j => Event.cancel j reason)

/-- Semantics of `await Promise.all(ps)` on the already-issued promises: it
resolves when every promise has resolved, and rejects with the failure of a
rejected promise. -/
def promiseAll : List (Except String Unit) → Except String Unit
  | [] => Except.ok ()
  | Except.ok _ :: rest => promiseAll rest
  | Except.error e :: _ => Except.error e

/-- Result of `await Promise.all(readers.map((reader) => reader.cancel(reason)))`. -/
def cancelAllResult (cf : CancelFn) (n : Nat) (reason : String) : Except String Unit :=
  promiseAll ((List.range n).map (fun j => cf j reason))

/-- Events following the cancellation batch in the done branch: if the batch
resolves, `controller.close()` runs; if it rejects, the pull promise rejects
and no close is performed. -/
def closeTail (T : Type) (cf : CancelFn) (n : Nat) (i : Nat) : List (Event T) :=
  match cancelAllResult cf n (endReason i) with
  | Except.ok _ => [Event.close]
  | Except.error e => [Event.error e]

/-- Outcome of the done branch: clean close when the cancellation batch
resolves, an errored stream when it rejects. -/
def doneOutcome (cf : CancelFn) (n : Nat) (i : Nat) : Outcome :=
  match cancelAllResult cf n (endReason i) with
  | Except.ok _ => Outcome.closed
  | Except.error e => Outcome.errored e

/-- The body of the `for` loop inside `pull(controller)`: `todo` is the list
of reader states still to be read this round, `i` the index of the first of
them, `acc` the already-advanced reader states of indices below `i`, and `n`
the total number of readers.  Reading the reader at `i` either yields
`{done: true}` — then every one of the `n` readers is cancelled with the
reason naming `i` and the output is closed (or the pull rejects if a
cancellation rejects) — or yields a value, which is enqueued before the loop
moves to index `i + 1`. -/
def roundAux (cf : CancelFn) (n : Nat) {T : Type} :
    List (List T) → Nat → List (List T) → RoundResult T
  | [], _, acc => ⟨[], acc, Outcome.next⟩
  | [] :: rest, i, acc =>
      ⟨Event.read i none :: cancelAllEvents T n (endReason i) ++ closeTail T cf n i,
       acc ++ [] :: rest,
       doneOutcome cf n i⟩
  | (v :: vs) :: rest, i, acc =>
      let r := roundAux cf n rest (i + 1) (acc ++ [vs])
      ⟨Event.read i (some v) :: Event.enqueue v :: r.events, r.readers, r.outcome⟩

/-- One invocation of the `pull(controller)` member of the underlying source
passed to `new ReadableStream`: a full round over all readers starting at
index `0`. -/
def pull {T : Type} (cf : CancelFn) (readers : List (List T)) : RoundResult T :=
  roundAux cf readers.length readers 0 []

/-- Result of a consumer draining the merged stream: the concatenated trace
and the outcome reached (`next` when the fuel ran out with the stream still
active). -/
structure DrainResult (T : Type) where
  events : List (Event T)
  outcome : Outcome
  readers : List (List T)
  deriving DecidableEq

/-- Modelled from the spec: the output-stream interface of §6 — a consumer
that repeatedly pulls to drain the merged stream.  `fuel` bounds the number of
pull invocations; the host calls `pull` again only after the previous pull
promise resolved, and stops once the stream closed or errored. -/
def drain {T : Type} (cf : CancelFn) (fuel : Nat) (readers : List (List T)) :
    DrainResult T :=
  match fuel with
  | 0 => ⟨[], Outcome.next, readers⟩
  | Nat.succ f =>
    let r := pull cf readers
    match r.outcome with
    | Outcome.next =>
        let d := drain cf f r.readers
        ⟨r.events ++ d.events, d.outcome, d.readers⟩
    | o => ⟨r.events, o, r.readers⟩

/-- Values enqueued into the output controller along a trace, in order. -/
def outputOf {T : Type} : List (Event T) → List T :=
  List.filterMap (fun e => match e with | Event.enqueue v => some v | _ => none)

/-- Indices of the reads issued along a trace, in order. -/
def readIndices {T : Type} : List (Event T) → List Nat :=
  List.filterMap (fun e => match e with | Event.read i _ => some i | _ => none)

/-- The `async cancel(reason)` member of the underlying source: every reader
is cancelled with the consumer-supplied reason and the batch is awaited with
`Promise.all`, whose result becomes the result of the cancel promise. -/
def streamCancel (T : Type) (cf : CancelFn) (n : Nat) (reason : String) :
    List (Event T) × Except String Unit :=
  (cancelAllEvents T n reason, cancelAllResult cf n reason)

/-- Lifecycle states of the merged output stream as seen by the host. -/
inductive MState where
  | active
  | closedM
  | erroredM (e : String)
  | cancelledM
  deriving DecidableEq

/-- The merged stream together with its lifecycle state. -/
structure Merged (T : Type) where
  readers : List (List T)
  state : MState
  deriving DecidableEq

/-- Modelled from the spec: the host stream driver invokes the source's
`pull` only while the stream is active; on a closed, errored or cancelled
stream no further round runs and no events are produced. -/
def pullStep {T : Type} (cf : CancelFn) (m : Merged T) :
    List (Event T) × Merged T :=
  match m.state with
  | MState.active =>
      let r := pull cf m.readers
      (r.events,
       ⟨r.readers,
        match r.outcome with
        | Outcome.next => MState.active
        | Outcome.closed => MState.closedM
        | Outcome.errored e => MState.erroredM e⟩)
  | _ => ([], m)

/-- Modelled from the spec: consumer-initiated cancellation of the merged
output — the host runs the source's `cancel(reason)` (which issues the batch
of reader cancellations) and moves the stream to the cancelled state, after
which `pull` is never invoked again. -/
def cancelStep {T : Type} (cf : CancelFn) (reason : String) (m : Merged T) :
    List (Event T) × Merged T :=
  match m.state with
  | MState.active =>
      ((streamCancel T cf m.readers.length reason).1, ⟨m.readers, MState.cancelledM⟩)
  | _ => ([], m)

/-- Iterated `pullStep`: the trace of `k` further pull attempts by the host. -/
def pullSteps {T : Type} (cf : CancelFn) (k : Nat) (m : Merged T) :
    List (Event T) × Merged T :=
  match k with
  | 0 => ([], m)
  | Nat.succ k' =>
      let p := pullStep cf m
      let q := pullSteps cf k' p.2
      (p.1 ++ q.1, q.2)

/-- Options record of `LimitedTransformStream`: the `error` toggle
(default `false`). -/
structure LTOptions where
  error : Bool
  deriving DecidableEq

/-- The message of the `RangeError` thrown in the transform:
`Exceeded chunk limit of '${size}'`. -/
def rangeErrorMsg (size : Int) : String :=
  "Exceeded chunk limit of \x27" ++ toString size ++ "\x27"

/-- Result of one `transform(chunk, controller)` call: the chunk was enqueued
and the `#read` counter advanced, or `controller.terminate()` ran, or a
`RangeError` carrying the configured size was thrown. -/
inductive LTStep (T : Type) where
  | enqueued (chunk : T) (newRead : Int)
  | terminated
  | errored (size : Int) (msg : String)
  deriving DecidableEq

/-- One `transform(chunk, controller)` call of `LimitedTransformStream`:
if `this.#read + 1 > size` then, depending on `options.error`, either a
`RangeError` is thrown or the stream is terminated; otherwise `#read` is
incremented and the chunk is enqueued unchanged. -/
def ltTransform {T : Type} (size : Int) (opts : LTOptions) (read : Int)
    (chunk : T) : LTStep T :=
  if size < read + 1 then
    if opts.error then LTStep.errored size (rangeErrorMsg size)
    else LTStep.terminated
  else LTStep.enqueued chunk (read + 1)

/-- Terminal state of a `LimitedTransformStream` run: the input ended and the
stream closed, `controller.terminate()` closed the readable side cleanly, or
the thrown `RangeError` moved the stream to the errored state. -/
inductive LTFinal where
  | closed
  | terminated
  | errored (size : Int) (msg : String)
  deriving DecidableEq

/-- Feeding a list of chunks through the transform, starting from counter
value `read`: returns the chunks enqueued into the output, the terminal
state, and the final value of the `#read` counter.  Once the transform
terminates or throws, no later chunk is processed. -/
def ltRunAux {T : Type} (size : Int) (opts : LTOptions) (read : Int) :
    List T → List T × LTFinal × Int
  | [] => ([], LTFinal.closed, read)
  | c :: cs =>
    match ltTransform size opts read c with
    | LTStep.enqueued v newRead =>
        let r := ltRunAux size opts newRead cs
        (v :: r.1, r.2.1, r.2.2)
    | LTStep.terminated => ([], LTFinal.terminated, read)
    | LTStep.errored s m => ([], LTFinal.errored s m, read)

/-- A whole run of a freshly constructed `LimitedTransformStream` (counter
starts at `0`) over the given input chunks. -/
def ltRun {T : Type} (size : Int) (opts : LTOptions) (chunks : List T) :
    List T × LTFinal × Int :=
  ltRunAux size opts 0 chunks

/-- Round-robin interleaving of the given sources for `k` rounds: the heads
of all sources, then the interleaving of the tails for `k - 1` more rounds. -/
def zipOut {T : Type} : Nat → List (List T) → List T
  | 0, _ => []
  | Nat.succ k, ss => ss.filterMap List.head? ++ zipOut k (ss.map List.tail)

/-- Trace of the successful portion of a round: for each reader state in the
list, a read returning its head followed by the enqueue of that head. -/
def readEnqEvents {T : Type} : List (List T) → Nat → List (Event T)
  | [], _ => []
  | [] :: _, _ => []
  | (v :: _) :: rest, i =>
      Event.read i (some v) :: Event.enqueue v :: readEnqEvents rest (i + 1)

/-- A cancel function whose cancellations all resolve. -/
def cfOk : CancelFn := fun _ _ => Except.ok ()

/-- A cancel function whose cancellations all reject. -/
def cfFail : CancelFn := fun _ _ => Except.error "cancel failed"

lemma outputOf_append {T : Type} (a b : List (Event T)) :
    outputOf (a ++ b) = outputOf a ++ outputOf b := by
  simp [outputOf]

lemma readIndices_append {T : Type} (a b : List (Event T)) :
    readIndices (a ++ b) = readIndices a ++ readIndices b := by
  simp [readIndices]

lemma outputOf_cancelAllEvents {T : Type} (n : Nat) (r : String) :
    outputOf (cancelAllEvents T n r) = [] := by
  unfold cancelAllEvents outputOf
  rw [List.filterMap_map]
  apply List.filterMap_eq_nil_iff.mpr
  intro a _
  rfl

lemma readIndices_cancelAllEvents {T : Type} (n : Nat) (r : String) :
    readIndices (cancelAllEvents T n r) = [] := by
  unfold cancelAllEvents readIndices
  rw [List.filterMap_map]
  apply List.filterMap_eq_nil_iff.mpr
  intro a _
  rfl

lemma outputOf_closeTail {T : Type} (cf : CancelFn) (n i : Nat) :
    outputOf (closeTail T cf n i) = [] := by
  unfold closeTail
  cases cancelAllResult cf n (endReason i) <;> simp [outputOf]

lemma readIndices_closeTail {T : Type} (cf : CancelFn) (n i : Nat) :
    readIndices (closeTail T cf n i) = [] := by
  unfold closeTail
  cases cancelAllResult cf n (endReason i) <;> simp [readIndices]

lemma roundAux_all_ne {T : Type} (cf : CancelFn) (n : Nat) :
    ∀ (todo : List (List T)) (i : Nat) (acc : List (List T)),
      (∀ s ∈ todo, s ≠ []) →
      roundAux cf n todo i acc =
        ⟨readEnqEvents todo i, acc ++ todo.map List.tail, Outcome.next⟩ := by
  intro todo
  induction todo with
  | nil => intro i acc _; simp [roundAux, readEnqEvents]
  | cons s rest ih =>
      intro i acc h
      obtain ⟨v, vs, rfl⟩ : ∃ v vs, s = v :: vs := by
        cases s with
        | nil => exact absurd rfl (h [] (by simp))
        | cons v vs => exact ⟨v, vs, rfl⟩
      simp only [roundAux, readEnqEvents]
      rw [ih (i + 1) (acc ++ [vs]) (fun t ht => h t (List.mem_cons_of_mem _ ht))]
      simp

lemma roundAux_done {T : Type} (cf : CancelFn) (n : Nat) :
    ∀ (pre rest : List (List T)) (i : Nat) (acc : List (List T)),
      (∀ s ∈ pre, s ≠ []) →
      roundAux cf n (pre ++ [] :: rest) i acc =
        ⟨readEnqEvents pre i ++
           Event.read (i + pre.length) none ::
             cancelAllEvents T n (endReason (i + pre.length)) ++
               closeTail T cf n (i + pre.length),
         acc ++ pre.map List.tail ++ [] :: rest,
         doneOutcome cf n (i + pre.length)⟩ := by
  intro pre
  induction pre with
  | nil => intro rest i acc _; simp [roundAux, readEnqEvents]
  | cons s pre' ih =>
      intro rest i acc h
      obtain ⟨v, vs, rfl⟩ : ∃ v vs, s = v :: vs := by
        cases s with
        | nil => exact absurd rfl (h [] (by simp))
        | cons v vs => exact ⟨v, vs, rfl⟩
      simp only [List.cons_append, roundAux, List.append_eq]
      rw [ih rest (i + 1) (acc ++ [vs]) (fun t ht => h t (List.mem_cons_of_mem _ ht))]
      have harith : i + 1 + pre'.length = i + ((v :: vs) :: pre').length := by
        simp only [List.length_cons]
        omega
      rw [harith]
      simp only [readEnqEvents, RoundResult.mk.injEq]
      refine ⟨by simp, by simp, by trivial⟩

lemma outputOf_readEnqEvents {T : Type} :
    ∀ (pre : List (List T)) (i : Nat), (∀ s ∈ pre, s ≠ []) →
      outputOf (readEnqEvents pre i) = pre.filterMap List.head? := by
  intro pre
  induction pre with
  | nil => intro i _; simp [readEnqEvents, outputOf]
  | cons s rest ih =>
      intro i h
      obtain ⟨v, vs, rfl⟩ : ∃ v vs, s = v :: vs := by
        cases s with
        | nil => exact absurd rfl (h [] (by simp))
        | cons v vs => exact ⟨v, vs, rfl⟩
      simp only [readEnqEvents, outputOf, List.filterMap_cons]
      rw [← outputOf]
      rw [ih (i + 1) (fun t ht => h t (List.mem_cons_of_mem _ ht))]
      simp

lemma readIndices_readEnqEvents {T : Type} :
    ∀ (pre : List (List T)) (i : Nat), (∀ s ∈ pre, s ≠ []) →
      readIndices (readEnqEvents pre i) =
        (List.range pre.length).map (fun q => i + q) := by
  intro pre
  induction pre with
  | nil => intro i _; simp [readEnqEvents, readIndices]
  | cons s rest ih =>
      intro i h
      obtain ⟨v, vs, rfl⟩ : ∃ v vs, s = v :: vs := by
        cases s with
        | nil => exact absurd rfl (h [] (by simp))
        | cons v vs => exact ⟨v, vs, rfl⟩
      simp only [readEnqEvents, readIndices, List.filterMap_cons]
      rw [← readIndices]
      rw [ih (i + 1) (fun t ht => h t (List.mem_cons_of_mem _ ht))]
      simp only [List.length_cons, List.range_succ_eq_map, List.map_cons,
        List.map_map, Nat.add_zero]
      congr 1
      apply List.map_congr_left
      intro q _
      simp only [Function.comp_apply]
      omega

lemma promiseAll_ok_iff (l : List (Except String Unit)) :
    promiseAll l = Except.ok () ↔ ∀ x ∈ l, x = Except.ok () := by
  induction l with
  | nil => simp [promiseAll]
  | cons x rest ih =>
      cases x with
      | ok u =>
          cases u
          simp [promiseAll, ih]
      | error e => simp [promiseAll]

lemma cancelAllResult_ok_iff (cf : CancelFn) (n : Nat) (r : String) :
    cancelAllResult cf n r = Except.ok () ↔
      ∀ j, j < n → cf j r = Except.ok () := by
  unfold cancelAllResult
  rw [promiseAll_ok_iff]
  constructor
  · intro h j hj
    exact h (cf j r) (List.mem_map_of_mem _ (List.mem_range.mpr hj))
  · intro h x hx
    obtain ⟨j, hj, rfl⟩ := List.mem_map.mp hx
    exact h j (List.mem_range.mp hj)

lemma closeTail_ok (T : Type) (cf : CancelFn) (n i : Nat)
    (h : cancelAllResult cf n (endReason i) = Except.ok ()) :
    closeTail T cf n i = [Event.close] := by
  unfold closeTail
  rw [h]

lemma doneOutcome_ok (cf : CancelFn) (n i : Nat)
    (h : cancelAllResult cf n (endReason i) = Except.ok ()) :
    doneOutcome cf n i = Outcome.closed := by
  unfold doneOutcome
  rw [h]

lemma doneOutcome_error (cf : CancelFn) (n i : Nat) (e : String)
    (h : cancelAllResult cf n (endReason i) = Except.error e) :
    doneOutcome cf n i = Outcome.errored e := by
  unfold doneOutcome
  rw [h]

lemma length_filterMap_head {T : Type} :
    ∀ (ss : List (List T)), (∀ s ∈ ss, s ≠ []) →
      (ss.filterMap List.head?).length = ss.length := by
  intro ss
  induction ss with
  | nil => intro _; simp
  | cons s rest ih =>
      intro h
      obtain ⟨v, vs, rfl⟩ : ∃ v vs, s = v :: vs := by
        cases s with
        | nil => exact absurd rfl (h [] (by simp))
        | cons v vs => exact ⟨v, vs, rfl⟩
      simp only [List.filterMap_cons, List.head?_cons, List.length_cons]
      rw [ih (fun t ht => h t (List.mem_cons_of_mem _ ht))]

lemma tail_length_of_uniform {T : Type} (k : Nat) (ss : List (List T))
    (h : ∀ s ∈ ss, s.length = k + 1) :
    ∀ s ∈ ss.map List.tail, s.length = k := by
  intro s hs
  obtain ⟨t, ht, rfl⟩ := List.mem_map.mp hs
  have hl := h t ht
  cases t with
  | nil => simp at hl
  | cons a l =>
      simp only [List.length_cons] at hl
      simp only [List.tail_cons]
      omega

lemma ne_nil_of_uniform {T : Type} (k : Nat) (ss : List (List T))
    (h : ∀ s ∈ ss, s.length = k + 1) : ∀ s ∈ ss, s ≠ [] := by
  intro s hs hemp
  have := h s hs
  rw [hemp] at this
  simp at this

lemma zipOut_length {T : Type} :
    ∀ (k : Nat) (ss : List (List T)), (∀ s ∈ ss, s.length = k) →
      (zipOut k ss).length = k * ss.length := by
  intro k
  induction k with
  | zero => intro ss _; simp [zipOut]
  | succ k ih =>
      intro ss h
      simp only [zipOut, List.length_append]
      rw [length_filterMap_head ss (ne_nil_of_uniform k ss h),
        ih (ss.map List.tail) (tail_length_of_uniform k ss h), List.length_map]
      ring


lemma filterMap_head_getD {T : Type} (d : T) :
    ∀ (ss : List (List T)), (∀ s ∈ ss, s ≠ []) →
      ∀ j, j < ss.length →
        (ss.filterMap List.head?).getD j d = (ss.getD j []).getD 0 d := by
  intro ss
  induction ss with
  | nil => intro _ j hj; simp at hj
  | cons s rest ih =>
      intro h j hj
      obtain ⟨v, vs, rfl⟩ : ∃ v vs, s = v :: vs := by
        cases s with
        | nil => exact absurd rfl (h [] (by simp))
        | cons v vs => exact ⟨v, vs, rfl⟩
      simp only [List.filterMap_cons, List.head?_cons]
      cases j with
      | zero => simp
      | succ j =>
          rw [List.getD_cons_succ, List.getD_cons_succ]
          exact ih (fun t ht => h t (List.mem_cons_of_mem _ ht)) j
            (by simpa using Nat.lt_of_succ_lt_succ hj)

lemma map_tail_getD {T : Type} :
    ∀ (ss : List (List T)) (j : Nat), j < ss.length →
      (ss.map List.tail).getD j [] = (ss.getD j []).tail := by
  intro ss
  induction ss with
  | nil => intro j hj; simp at hj
  | cons s rest ih =>
      intro j hj
      cases j with
      | zero => simp
      | succ j =>
          simp only [List.map_cons, List.getD_cons_succ]
          exact ih j (by simpa using Nat.lt_of_succ_lt_succ hj)

lemma tail_getD {T : Type} (s : List T) (hs : s ≠ []) (q : Nat) (d : T) :
    s.tail.getD q d = s.getD (q + 1) d := by
  cases s with
  | nil => exact absurd rfl hs
  | cons v vs => simp

lemma getD_mem_of_lt {T : Type} (ss : List (List T)) (j : Nat)
    (hj : j < ss.length) : ss.getD j [] ∈ ss := by
  rw [List.getD_eq_getElem _ _ hj]
  exact List.getElem_mem hj

lemma zipOut_getD {T : Type} (d : T) :
    ∀ (k : Nat) (ss : List (List T)), (∀ s ∈ ss, s.length = k) →
      ∀ j, j < k * ss.length →
        (zipOut k ss).getD j d =
          (ss.getD (j % ss.length) []).getD (j / ss.length) d := by
  intro k
  induction k with
  | zero =>
      intro ss _ j hj
      simp at hj
  | succ k ih =>
      intro ss h j hj
      have hn0 : 0 < ss.length := by
        rcases Nat.eq_zero_or_pos ss.length with h0 | h0
        · rw [h0] at hj
          simp at hj
        · exact h0
      have hne := ne_nil_of_uniform k ss h
      have hheads : (ss.filterMap List.head?).length = ss.length :=
        length_filterMap_head ss hne
      simp only [zipOut]
      rcases Nat.lt_or_ge j ss.length with hjn | hjn
      · rw [List.getD_append _ _ _ _ (by rw [hheads]; exact hjn)]
        rw [Nat.mod_eq_of_lt hjn, Nat.div_eq_of_lt hjn]
        exact filterMap_head_getD d ss hne j hjn
      · rw [List.getD_append_right _ _ _ _ (by rw [hheads]; exact hjn), hheads]
        have hmul : Nat.succ k * ss.length = k * ss.length + ss.length :=
          Nat.succ_mul k ss.length
        rw [hmul] at hj
        set A := k * ss.length with hA
        have hj2 : j - ss.length < A := by omega
        have hj3 : j - ss.length < k * (ss.map List.tail).length := by
          rw [List.length_map, ← hA]
          exact hj2
        rw [ih (ss.map List.tail) (tail_length_of_uniform k ss h)
          (j - ss.length) hj3]
        rw [List.length_map]
        have hm : (j - ss.length) % ss.length < ss.length :=
          Nat.mod_lt _ hn0
        rw [map_tail_getD ss _ hm]
        rw [tail_getD _ (hne _ (getD_mem_of_lt ss _ hm)) _ d]
        rw [← Nat.mod_eq_sub_mod hjn, ← Nat.div_eq_sub_div hn0 hjn]

lemma outputOf_cons_read {T : Type} (i : Nat) (o : Option T) (l : List (Event T)) :
    outputOf (Event.read i o :: l) = outputOf l := by
  simp [outputOf]

lemma outputOf_cons_enqueue {T : Type} (v : T) (l : List (Event T)) :
    outputOf (Event.enqueue v :: l) = v :: outputOf l := by
  simp [outputOf]

lemma drain_uniform {T : Type} (cf : CancelFn) (hcf : ∀ j r, cf j r = Except.ok ()) :
    ∀ (k : Nat) (sources : List (List T)) (fuel : Nat),
      1 ≤ sources.length → (∀ s ∈ sources, s.length = k) → k + 1 ≤ fuel →
      (drain cf fuel sources).outcome = Outcome.closed ∧
      outputOf (drain cf fuel sources).events = zipOut k sources := by
  intro k
  induction k with
  | zero =>
      intro sources fuel hn h hfuel
      obtain ⟨s0, rest, rfl⟩ : ∃ s0 rest, sources = s0 :: rest := by
        cases sources with
        | nil => simp at hn
        | cons a l => exact ⟨a, l, rfl⟩
      have hs0 : s0 = [] := by
        have := h s0 (by simp)
        exact List.eq_nil_of_length_eq_zero this
      subst hs0
      obtain ⟨f, rfl⟩ : ∃ f, fuel = f + 1 := ⟨fuel - 1, by omega⟩
      have hres : cancelAllResult cf (([] : List T) :: rest).length
          (endReason 0) = Except.ok () := by
        rw [cancelAllResult_ok_iff]
        intro j _
        exact hcf j _
      have hdone := roundAux_done cf (([] : List T) :: rest).length [] rest 0 []
        (by intro s hs; simp at hs)
      simp only [List.nil_append, readEnqEvents, List.length_nil, Nat.add_zero,
        List.map_nil] at hdone
      have hpull : pull cf (([] : List T) :: rest) =
          ⟨Event.read 0 none :: cancelAllEvents T (([] : List T) :: rest).length
              (endReason 0) ++ closeTail T cf (([] : List T) :: rest).length 0,
            [] :: rest, doneOutcome cf (([] : List T) :: rest).length 0⟩ := by
        unfold pull
        rw [hdone]
      simp only [drain, hpull, doneOutcome_ok _ _ _ hres]
      constructor
      · trivial
      · rw [outputOf_append, outputOf_cons_read, outputOf_cancelAllEvents,
          outputOf_closeTail]
        rfl
  | succ k ih =>
      intro sources fuel hn h hfuel
      have hne : ∀ s ∈ sources, s ≠ [] := ne_nil_of_uniform k sources h
      obtain ⟨f, rfl⟩ : ∃ f, fuel = f + 1 := ⟨fuel - 1, by omega⟩
      have hpull : pull cf sources =
          ⟨readEnqEvents sources 0, [] ++ sources.map List.tail, Outcome.next⟩ :=
        roundAux_all_ne cf sources.length sources 0 [] hne
      have ihx := ih (sources.map List.tail) f
        (by rw [List.length_map]; exact hn)
        (tail_length_of_uniform k sources h) (by omega)
      simp only [drain, hpull, List.nil_append]
      refine ⟨ihx.1, ?_⟩
      rw [outputOf_append, ihx.2, outputOf_readEnqEvents sources 0 hne]
      rfl

/-- C1: for n ≥ 1 sources that all hold exactly k chunks, draining the merged
stream closes it and yields exactly k·n items in strict round-robin order:
item j of the output is item (j div n) of source (j mod n). -/
theorem earlyZip_roundRobin {T : Type} (cf : CancelFn)
    (hcf : ∀ j r, cf j r = Except.ok ())
    (sources : List (List T)) (k : Nat)
    (hn : 1 ≤ sources.length)
    (hlen : ∀ s ∈ sources, s.length = k)
    (fuel : Nat) (hfuel : k + 1 ≤ fuel) (d : T) :
    (drain cf fuel sources).outcome = Outcome.closed ∧
    (outputOf (drain cf fuel sources).events).length = k * sources.length ∧
    ∀ j, j < k * sources.length →
      (outputOf (drain cf fuel sources).events).getD j d =
        (sources.getD (j % sources.length) []).getD (j / sources.length) d := by
  obtain ⟨hclosed, hout⟩ := drain_uniform cf hcf k sources fuel hn hlen hfuel
  refine ⟨hclosed, ?_, ?_⟩
  · rw [hout]
    exact zipOut_length k sources hlen
  · intro j hj
    rw [hout]
    exact zipOut_getD d k sources hlen j hj

/-- Witness for C1: the spec example with sources of three chunks each —
the merged stream closes and, for instance, output item 3 is item 1 of
source 1. -/
theorem earlyZip_roundRobin_witness :
    (drain cfOk 4 [["1", "2", "3"], ["a", "b", "c"]]).outcome = Outcome.closed ∧
    (outputOf (drain cfOk 4 [["1", "2", "3"], ["a", "b", "c"]]).events).getD 3 ""
      = "b" := by
  have h := earlyZip_roundRobin cfOk (fun _ _ => rfl)
    [["1", "2", "3"], ["a", "b", "c"]] 3 (by decide) (by decide) 4 (by decide) ""
  refine ⟨h.1, ?_⟩
  have h3 := h.2.2 3 (by decide)
  simpa using h3

lemma readIndices_cons_read {T : Type} (i : Nat) (o : Option T)
    (l : List (Event T)) :
    readIndices (Event.read i o :: l) = i :: readIndices l := by
  simp [readIndices]

lemma readIndices_cons_enqueue {T : Type} (v : T) (l : List (Event T)) :
    readIndices (Event.enqueue v :: l) = readIndices l := by
  simp [readIndices]

lemma roundAux_readIndices {T : Type} (cf : CancelFn) (n : Nat) :
    ∀ (todo : List (List T)) (i : Nat) (acc : List (List T)),
      ∃ m, m ≤ todo.length ∧
        readIndices (roundAux cf n todo i acc).events =
          (List.range m).map (fun q => i + q) := by
  intro todo
  induction todo with
  | nil =>
      intro i acc
      exact ⟨0, by simp, by simp [roundAux, readIndices]⟩
  | cons s rest ih =>
      intro i acc
      cases s with
      | nil =>
          refine ⟨1, by simp, ?_⟩
          simp only [roundAux]
          rw [readIndices_append, readIndices_cons_read,
            readIndices_cancelAllEvents, readIndices_closeTail]
          rw [List.range_succ_eq_map]
          simp
      | cons v vs =>
          obtain ⟨m, hm, heq⟩ := ih (i + 1) (acc ++ [vs])
          refine ⟨m + 1, by simpa using hm, ?_⟩
          simp only [roundAux]
          rw [readIndices_cons_read, readIndices_cons_enqueue, heq,
            List.range_succ_eq_map]
          simp only [List.map_cons, List.map_map, Nat.add_zero]
          congr 1
          apply List.map_congr_left
          intro q _
          simp only [Function.comp_apply]
          omega

/-- C9: called with an empty list of sources, every pull performs an empty
round that neither enqueues an item nor closes the output, so draining the
merged stream for any number of pulls produces no items and never reaches a
terminal outcome. -/
theorem earlyZip_zeroSources {T : Type} (cf : CancelFn) (fuel : Nat) :
    pull cf ([] : List (List T)) = ⟨[], [], Outcome.next⟩ ∧
    (drain cf fuel ([] : List (List T))).events = [] ∧
    (drain cf fuel ([] : List (List T))).outcome = Outcome.next := by
  have hp : pull cf ([] : List (List T)) = ⟨[], [], Outcome.next⟩ := rfl
  refine ⟨hp, ?_⟩
  induction fuel with
  | zero => exact ⟨rfl, rfl⟩
  | succ f ihf =>
      simp only [drain, hp, List.nil_append]
      exact ihf

/-- C8: within one merge round the reads are issued strictly sequentially in
source-index order — the trace's read indices are exactly 0, 1, …, m-1 for
some m ≤ n — and the trace of draining one more round is the complete trace
of the current round followed by the next round's trace exactly when the
current round left the stream active, and by nothing otherwise. -/
theorem earlyZip_sequentialRounds {T : Type} (cf : CancelFn)
    (readers : List (List T)) (fuel : Nat) :
    (∃ m, m ≤ readers.length ∧
      readIndices (pull cf readers).events = List.range m) ∧
    (drain cf (fuel + 1) readers).events =
      (pull cf readers).events ++
        (if (pull cf readers).outcome = Outcome.next
         then (drain cf fuel (pull cf readers).readers).events
         else []) := by
  constructor
  · obtain ⟨m, hm, heq⟩ := roundAux_readIndices cf readers.length readers 0 []
    refine ⟨m, hm, ?_⟩
    unfold pull
    rw [heq]
    simp
  · cases h : (pull cf readers).outcome with
    | next => simp [drain, h]
    | closed => simp [drain, h]
    | errored e => simp [drain, h]

lemma take_ne_of_before {T : Type} (readers : List (List T)) (i : Nat)
    (hbefore : ∀ j, j < i → readers.getD j [] ≠ []) :
    ∀ s ∈ readers.take i, s ≠ [] := by
  intro s hs
  obtain ⟨j, hj, heq⟩ := List.mem_iff_getElem.mp hs
  have hjlen : j < readers.length := by
    rw [List.length_take] at hj
    omega
  have hji : j < i := by
    rw [List.length_take] at hj
    omega
  have hgs : (readers.take i)[j] = readers[j] := List.getElem_take readers
  have hb := hbefore j hji
  rw [List.getD_eq_getElem readers [] hjlen] at hb
  rw [← heq, hgs]
  exact hb

lemma pull_done_char {T : Type} (cf : CancelFn) (readers : List (List T))
    (i : Nat) (hi : i < readers.length)
    (hdone : readers.getD i [] = [])
    (hbefore : ∀ j, j < i → readers.getD j [] ≠ []) :
    pull cf readers =
      ⟨readEnqEvents (readers.take i) 0 ++
         Event.read i none :: cancelAllEvents T readers.length (endReason i) ++
           closeTail T cf readers.length i,
       (readers.take i).map List.tail ++ [] :: readers.drop (i + 1),
       doneOutcome cf readers.length i⟩ := by
  have hgelem : readers[i] = [] := by
    rw [← List.getD_eq_getElem readers [] hi]
    exact hdone
  have hsplit : readers = readers.take i ++ [] :: readers.drop (i + 1) := by
    conv_lhs => rw [← List.take_append_drop i readers]
    congr 1
    rw [List.drop_eq_getElem_cons hi, hgelem]
  have hpre_ne := take_ne_of_before readers i hbefore
  have htake_len : (readers.take i).length = i := by
    rw [List.length_take]
    omega
  have h := roundAux_done cf readers.length (readers.take i)
    (readers.drop (i + 1)) 0 [] hpre_ne
  rw [htake_len] at h
  simp only [Nat.zero_add, List.nil_append] at h
  rw [← hsplit] at h
  unfold pull
  exact h

lemma error_not_mem_readEnqEvents {T : Type} (e : String) :
    ∀ (pre : List (List T)) (i : Nat), Event.error e ∉ readEnqEvents pre i := by
  intro pre
  induction pre with
  | nil => intro i; simp [readEnqEvents]
  | cons s rest ih =>
      intro i
      cases s with
      | nil => simp [readEnqEvents]
      | cons v vs =>
          simp only [readEnqEvents, List.mem_cons]
          push_neg
          exact ⟨by simp, by simp, ih (i + 1)⟩

lemma error_not_mem_cancelAllEvents {T : Type} (e : String) (n : Nat)
    (r : String) : Event.error e ∉ cancelAllEvents T n r := by
  simp [cancelAllEvents]

lemma cancel_mem_cancelAllEvents {T : Type} (n j : Nat) (r : String)
    (hj : j < n) : Event.cancel j r ∈ cancelAllEvents T n r := by
  simp only [cancelAllEvents, List.mem_map]
  exact ⟨j, List.mem_range.mpr hj, rfl⟩

/-- C3: when the read at source index i signals end-of-stream, the pull closes
the output cleanly (no error event, a close event, closed outcome), every one
of the n readers — including those not yet read this round and index i itself
— receives a cancellation whose reason names index i, and every item read
earlier in the same round is retained in the output. -/
theorem earlyZip_endOfStreamCancelsAll {T : Type} (cf : CancelFn)
    (readers : List (List T)) (i : Nat)
    (hcf : ∀ j r, cf j r = Except.ok ())
    (hi : i < readers.length)
    (hdone : readers.getD i [] = [])
    (hbefore : ∀ j, j < i → readers.getD j [] ≠ []) :
    (pull cf readers).outcome = Outcome.closed ∧
    (∀ j, j < readers.length →
      Event.cancel j (endReason i) ∈ (pull cf readers).events) ∧
    Event.close ∈ (pull cf readers).events ∧
    (∀ e, Event.error e ∉ (pull cf readers).events) ∧
    outputOf (pull cf readers).events = (readers.take i).filterMap List.head? := by
  have hres : cancelAllResult cf readers.length (endReason i) = Except.ok () := by
    rw [cancelAllResult_ok_iff]
    intro j _
    exact hcf j _
  have hchar := pull_done_char cf readers i hi hdone hbefore
  rw [hchar]
  rw [closeTail_ok T cf readers.length i hres]
  refine ⟨doneOutcome_ok cf readers.length i hres, ?_, ?_, ?_, ?_⟩
  · intro j hj
    have hc : Event.cancel j (endReason i) ∈
        cancelAllEvents T readers.length (endReason i) :=
      cancel_mem_cancelAllEvents readers.length j (endReason i) hj
    simp only [List.mem_append, List.mem_cons]
    tauto
  · simp
  · intro e
    have h1 := error_not_mem_readEnqEvents e (readers.take i) 0
    have h2 : Event.error e ∉ cancelAllEvents T readers.length (endReason i) :=
      error_not_mem_cancelAllEvents e readers.length (endReason i)
    simp only [List.mem_append, List.mem_cons, List.mem_singleton]
    push_neg
    exact ⟨⟨h1, by simp, h2⟩, by simp⟩
  · rw [outputOf_append, outputOf_append, outputOf_cons_read,
      outputOf_cancelAllEvents]
    rw [outputOf_readEnqEvents _ 0 (take_ne_of_before readers i hbefore)]
    simp [outputOf]

/-- Witness for C3: the spec's shorter-second-source example at the round
where exhaustion is detected — sources in state [["3","4"], []]: the item "3"
read earlier in the round is retained, both readers are cancelled with the
reason naming index 1, and the stream closes. -/
theorem earlyZip_endOfStreamCancelsAll_witness :
    (pull cfOk [["3", "4"], ([] : List String)]).outcome = Outcome.closed ∧
    Event.cancel 0 (endReason 1) ∈
      (pull cfOk [["3", "4"], ([] : List String)]).events ∧
    Event.cancel 1 (endReason 1) ∈
      (pull cfOk [["3", "4"], ([] : List String)]).events ∧
    outputOf (pull cfOk [["3", "4"], ([] : List String)]).events = ["3"] := by
  have h := earlyZip_endOfStreamCancelsAll cfOk [["3", "4"], []] 1
    (fun _ _ => rfl) (by decide) (by decide)
    (by
      intro j hj
      have hj0 : j = 0 := by omega
      subst hj0
      decide)
  refine ⟨h.1, h.2.1 0 (by decide), h.2.1 1 (by decide), ?_⟩
  rw [h.2.2.2.2]
  decide

/-- C5: when the merger cancels its sources as a batch — on first exhaustion
or on consumer-initiated cancellation — every cancellation in the batch is
issued before the terminal event of the trace, termination completes only
with the batch's joined result (close only when the whole batch resolved),
and a failing cancellation is propagated: the pull outcome becomes the
error, and the consumer-cancel promise resolves exactly when every reader
cancellation resolves. -/
theorem earlyZip_cancellationBatch {T : Type} (cf : CancelFn)
    (readers : List (List T)) (i : Nat)
    (hi : i < readers.length)
    (hdone : readers.getD i [] = [])
    (hbefore : ∀ j, j < i → readers.getD j [] ≠ []) :
    (pull cf readers).events =
      readEnqEvents (readers.take i) 0 ++
        Event.read i none :: cancelAllEvents T readers.length (endReason i) ++
          closeTail T cf readers.length i ∧
    (cancelAllResult cf readers.length (endReason i) = Except.ok () ↔
      ∀ j, j < readers.length → cf j (endReason i) = Except.ok ()) ∧
    (∀ e, cancelAllResult cf readers.length (endReason i) = Except.error e →
      (pull cf readers).outcome = Outcome.errored e ∧
        closeTail T cf readers.length i = [Event.error e]) ∧
    (cancelAllResult cf readers.length (endReason i) = Except.ok () →
      (pull cf readers).outcome = Outcome.closed) ∧
    (∀ reason, (streamCancel T cf readers.length reason).2 = Except.ok () ↔
      ∀ j, j < readers.length → cf j reason = Except.ok ()) := by
  have hchar := pull_done_char cf readers i hi hdone hbefore
  refine ⟨by rw [hchar], cancelAllResult_ok_iff cf readers.length (endReason i),
    ?_, ?_, ?_⟩
  · intro e he
    constructor
    · rw [hchar]
      exact doneOutcome_error cf readers.length i e he
    · unfold closeTail
      rw [he]
  · intro hok
    rw [hchar]
    exact doneOutcome_ok cf readers.length i hok
  · intro reason
    exact cancelAllResult_ok_iff cf readers.length reason

/-- Witness for C5: with every reader cancellation rejecting, the pull that
detects exhaustion of source 1 propagates the failure instead of closing
(no close event is emitted; the pull rejects). -/
theorem earlyZip_cancellationBatch_witness :
    (pull cfFail [["a"], ([] : List String)]).outcome =
      Outcome.errored "cancel failed" ∧
    closeTail String cfFail 2 1 = [Event.error "cancel failed"] := by
  have h := earlyZip_cancellationBatch cfFail [["a"], []] 1 (by decide)
    (by decide)
    (by
      intro j hj
      have hj0 : j = 0 := by omega
      subst hj0
      decide)
  exact h.2.2.1 "cancel failed" (by rfl)

lemma count_cancelAllEvents {T : Type} [DecidableEq T] (n j : Nat) (r : String)
    (hj : j < n) :
    List.count (Event.cancel j r) (cancelAllEvents T n r) = 1 := by
  have hinj : Function.Injective (fun q : Nat => (Event.cancel q r : Event T)) := by
    intro a b hab
    simpa using hab
  have hnd : (cancelAllEvents T n r).Nodup := by
    unfold cancelAllEvents
    exact (List.nodup_range n).map hinj
  exact List.count_eq_one_of_mem hnd (cancel_mem_cancelAllEvents n j r hj)

lemma pullStep_not_active {T : Type} (cf : CancelFn) (m : Merged T)
    (hm : m.state ≠ MState.active) : pullStep cf m = ([], m) := by
  cases m with
  | mk readers st =>
      cases st with
      | active => exact absurd rfl hm
      | closedM => rfl
      | erroredM e => rfl
      | cancelledM => rfl

lemma pullSteps_not_active {T : Type} (cf : CancelFn) :
    ∀ (k : Nat) (m : Merged T), m.state ≠ MState.active →
      pullSteps cf k m = ([], m) := by
  intro k
  induction k with
  | zero => intro m _; rfl
  | succ k ih =>
      intro m hm
      simp only [pullSteps, pullStep_not_active cf m hm, ih m hm,
        List.nil_append]

/-- C6: consumer-initiated cancellation of the merged output issues the whole
batch of reader cancellations — every reader index, each exactly once, each
with the consumer-supplied reason — moves the stream to the cancelled state,
and no later pull attempt runs a round or produces any event. -/
theorem earlyZip_consumerCancel {T : Type} [DecidableEq T] (cf : CancelFn)
    (reason : String) (m : Merged T) (hm : m.state = MState.active) :
    (cancelStep cf reason m).1 = cancelAllEvents T m.readers.length reason ∧
    (∀ j, j < m.readers.length →
      List.count (Event.cancel j reason) (cancelStep cf reason m).1 = 1) ∧
    (cancelStep cf reason m).2.state = MState.cancelledM ∧
    ∀ k, (pullSteps cf k (cancelStep cf reason m).2).1 = [] := by
  have hstep : cancelStep cf reason m =
      (cancelAllEvents T m.readers.length reason,
        ⟨m.readers, MState.cancelledM⟩) := by
    cases m with
    | mk readers st =>
        cases st with
        | active => rfl
        | closedM => simp at hm
        | erroredM e => simp at hm
        | cancelledM => simp at hm
  rw [hstep]
  refine ⟨rfl, ?_, rfl, ?_⟩
  · intro j hj
    exact count_cancelAllEvents m.readers.length j reason hj
  · intro k
    rw [pullSteps_not_active cf k ⟨m.readers, MState.cancelledM⟩ (by simp)]

/-- Witness for C6: cancelling the merged stream over sources [["a"], ["b"]]
with reason "stop" produces the two cancellations (index 0 exactly once) and
two further pull attempts produce no events. -/
theorem earlyZip_consumerCancel_witness :
    (cancelStep cfOk "stop"
      (⟨[["a"], ["b"]], MState.active⟩ : Merged String)).1 =
        cancelAllEvents String 2 "stop" ∧
    List.count (Event.cancel 0 "stop")
      (cancelStep cfOk "stop"
        (⟨[["a"], ["b"]], MState.active⟩ : Merged String)).1 = 1 ∧
    (pullSteps cfOk 2
      (cancelStep cfOk "stop"
        (⟨[["a"], ["b"]], MState.active⟩ : Merged String)).2).1 = [] := by
  have h := earlyZip_consumerCancel cfOk "stop"
    (⟨[["a"], ["b"]], MState.active⟩ : Merged String) rfl
  exact ⟨h.1, h.2.1 0 (by decide), h.2.2.2 2⟩

lemma ltRunAux_char {T : Type} (size : Int) (opts : LTOptions) :
    ∀ (chunks : List T) (read : Int), 0 ≤ read → read ≤ size →
      (if (chunks.length : Int) ≤ size - read
       then ltRunAux size opts read chunks =
         (chunks, LTFinal.closed, read + chunks.length)
       else ltRunAux size opts read chunks =
         (chunks.take (size - read).toNat,
          if opts.error then LTFinal.errored size (rangeErrorMsg size)
          else LTFinal.terminated,
          size)) := by
  intro chunks
  induction chunks with
  | nil =>
      intro read h0 hs
      rw [if_pos (by simp only [List.length_nil]; push_cast; omega)]
      simp [ltRunAux]
  | cons c cs ih =>
      intro read h0 hs
      rcases lt_or_ge read size with hlt | hge
      · have hstep : ltTransform size opts read c =
            LTStep.enqueued c (read + 1) := by
          unfold ltTransform
          rw [if_neg (by omega)]
        have ihx := ih (read + 1) (by omega) (by omega)
        by_cases hlen : ((c :: cs).length : Int) ≤ size - read
        · rw [if_pos hlen]
          have hlen' : ((cs.length : Int) ≤ size - (read + 1)) := by
            simp only [List.length_cons] at hlen
            push_cast at hlen ⊢
            omega
          rw [if_pos hlen'] at ihx
          simp only [ltRunAux, hstep]
          rw [ihx]
          simp only [Prod.mk.injEq, List.length_cons]
          refine ⟨trivial, trivial, ?_⟩
          push_cast
          ring
        · rw [if_neg hlen]
          have hlen' : ¬ ((cs.length : Int) ≤ size - (read + 1)) := by
            simp only [List.length_cons] at hlen
            push_cast at hlen ⊢
            omega
          rw [if_neg hlen'] at ihx
          simp only [ltRunAux, hstep]
          rw [ihx]
          have htake : (size - read).toNat = (size - (read + 1)).toNat + 1 := by
            omega
          rw [htake]
          simp [List.take_succ_cons]
      · have hrs : read = size := le_antisymm hs hge
        subst hrs
        have hstep : ltTransform read opts read c =
            (if opts.error then LTStep.errored read (rangeErrorMsg read)
             else LTStep.terminated) := by
          unfold ltTransform
          rw [if_pos (by omega)]
        rw [if_neg (by simp only [List.length_cons]; push_cast; omega)]
        rw [show (read - read).toNat = 0 from by omega]
        cases he : opts.error
        · rw [he] at hstep
          simp only [Bool.false_eq_true, if_false] at hstep
          simp [ltRunAux, hstep, he]
        · rw [he] at hstep
          simp only [if_true] at hstep
          simp [ltRunAux, hstep, he]

lemma ltRun_all {T : Type} (k : Nat) (opts : LTOptions) (chunks : List T)
    (hlen : chunks.length ≤ k) :
    ltRun (k : Int) opts chunks =
      (chunks, LTFinal.closed, (chunks.length : Int)) := by
  have h := ltRunAux_char (k : Int) opts chunks 0 (by omega) (by omega)
  rw [if_pos (by omega)] at h
  unfold ltRun
  rw [h]
  simp

lemma ltRun_over {T : Type} (k : Nat) (opts : LTOptions) (chunks : List T)
    (hlen : k < chunks.length) :
    ltRun (k : Int) opts chunks =
      (chunks.take k,
       if opts.error then LTFinal.errored (k : Int) (rangeErrorMsg (k : Int))
       else LTFinal.terminated,
       (k : Int)) := by
  have h := ltRunAux_char (k : Int) opts chunks 0 (by omega) (by omega)
  rw [if_neg (by omega)] at h
  unfold ltRun
  rw [h]
  rw [show ((k : Int) - 0).toNat = k from by omega]

/-- C2: for the limiter with positive integer size k and an input of m
chunks: if m ≤ k the whole input passes through unchanged and the stream
closes with the input's end; if m > k and the error option is off the output
is exactly the first k chunks followed by the clean terminate; if m > k and
the error option is on the output is the first k chunks followed by the
limit-exceeded failure; and in every mode the output never holds more than k
chunks. -/
theorem limitedTransform_output {T : Type} (k : Nat) (_hk : 1 ≤ k)
    (opts : LTOptions) (chunks : List T) :
    (chunks.length ≤ k →
      ltRun (k : Int) opts chunks =
        (chunks, LTFinal.closed, (chunks.length : Int))) ∧
    (k < chunks.length →
      ltRun (k : Int) ⟨false⟩ chunks =
        (chunks.take k, LTFinal.terminated, (k : Int))) ∧
    (k < chunks.length →
      ltRun (k : Int) ⟨true⟩ chunks =
        (chunks.take k,
         LTFinal.errored (k : Int) (rangeErrorMsg (k : Int)), (k : Int))) ∧
    ∀ o : LTOptions, (ltRun (k : Int) o chunks).1.length ≤ k := by
  refine ⟨?_, ?_, ?_, ?_⟩
  · intro hle
    exact ltRun_all k opts chunks hle
  · intro hgt
    rw [ltRun_over k ⟨false⟩ chunks hgt]
    simp
  · intro hgt
    rw [ltRun_over k ⟨true⟩ chunks hgt]
    simp
  · intro o
    rcases Nat.lt_or_ge k chunks.length with hgt | hle
    · rw [ltRun_over k o chunks hgt]
      simp [List.length_take]
    · rw [ltRun_all k o chunks hle]
      exact hle

/-- Witness for C2: the two spec examples — size 2 passes both chunks
through and closes; size 1 emits only the first chunk and terminates. -/
theorem limitedTransform_output_witness :
    ltRun (2 : Int) ⟨false⟩ ["1234", "5678"] =
      (["1234", "5678"], LTFinal.closed, 2) ∧
    ltRun (1 : Int) ⟨false⟩ ["1234", "5678"] =
      (["1234"], LTFinal.terminated, 1) := by
  constructor
  · have h := (limitedTransform_output 2 (by decide) ⟨false⟩
      ["1234", "5678"]).1 (by decide)
    simpa using h
  · have h := (limitedTransform_output 1 (by decide) ⟨false⟩
      ["1234", "5678"]).2.1 (by decide)
    simpa using h

/-- C4: with positive size, the forwarded-chunk counter never exceeds size
after any completed run of a whole input portion taken from the front, the transform step taken
when the counter would overflow is the terminate/error step, and a step
that does enqueue advances the counter by exactly one and keeps it within
the size bound. -/
theorem limitedTransform_counterInvariant {T : Type} (size : Int)
    (hsize : 0 < size) (opts : LTOptions) (chunks : List T) :
    (∀ j, (ltRun size opts (chunks.take j)).2.2 ≤ size) ∧
    (∀ (read : Int) (chunk : T), size < read + 1 →
      ltTransform size opts read chunk =
        (if opts.error then LTStep.errored size (rangeErrorMsg size)
         else LTStep.terminated)) ∧
    (∀ (read : Int) (chunk : T) (v : T) (nr : Int),
      ltTransform size opts read chunk = LTStep.enqueued v nr →
        nr = read + 1 ∧ nr ≤ size) := by
  refine ⟨?_, ?_, ?_⟩
  · intro j
    have h := ltRunAux_char size opts (chunks.take j) 0 (by omega) (by omega)
    by_cases hc : (((chunks.take j).length : Int) ≤ size - 0)
    · rw [if_pos hc] at h
      unfold ltRun
      rw [h]
      simp only []
      omega
    · rw [if_neg hc] at h
      unfold ltRun
      rw [h]
  · intro read chunk hlt
    unfold ltTransform
    rw [if_pos hlt]
  · intro read chunk v nr heq
    unfold ltTransform at heq
    by_cases hc : size < read + 1
    · rw [if_pos hc] at heq
      cases he : opts.error
      · rw [he] at heq
        simp at heq
      · rw [he] at heq
        simp at heq
    · rw [if_neg hc] at heq
      injection heq with h1 h2
      exact ⟨h2.symm, by omega⟩

/-- Witness for C4: size 2 over three chunks — after the full run the
counter is at most 2, and the overflow step at counter 2 terminates. -/
theorem limitedTransform_counterInvariant_witness :
    (ltRun (2 : Int) ⟨false⟩ (["a", "b", "c"].take 3)).2.2 ≤ 2 ∧
    ltTransform (2 : Int) ⟨false⟩ 2 "c" = LTStep.terminated := by
  have h := limitedTransform_counterInvariant (2 : Int) (by omega) ⟨false⟩
    ["a", "b", "c"]
  refine ⟨h.1 3, ?_⟩
  have h2 := h.2.1 2 "c" (by omega)
  simpa using h2

/-- C7: in error mode with positive size k, an input longer than k makes the
stream fail with the limit-exceeded RangeError that carries the configured
size in its payload and message, the run's terminal state is the errored
state, and chunks past the failing one are never processed: appending more
input changes nothing. -/
theorem limitedTransform_errorMode {T : Type} (k : Nat) (_hk : 1 ≤ k)
    (chunks : List T) (hlen : k < chunks.length) :
    ltRun (k : Int) ⟨true⟩ chunks =
      (chunks.take k,
       LTFinal.errored (k : Int) (rangeErrorMsg (k : Int)), (k : Int)) ∧
    (∀ extra : List T, ltRun (k : Int) ⟨true⟩ (chunks ++ extra) =
      ltRun (k : Int) ⟨true⟩ chunks) := by
  constructor
  · rw [ltRun_over k ⟨true⟩ chunks hlen]
    simp
  · intro extra
    have hlen2 : k < (chunks ++ extra).length := by
      rw [List.length_append]
      omega
    rw [ltRun_over k ⟨true⟩ chunks hlen, ltRun_over k ⟨true⟩ (chunks ++ extra) hlen2]
    rw [List.take_append_of_le_length (by omega)]

/-- Witness for C7: the spec example — size 1 in error mode over two chunks
fails with the RangeError for size 1 after forwarding only the first chunk,
and an extra appended chunk changes nothing. -/
theorem limitedTransform_errorMode_witness :
    ltRun (1 : Int) ⟨true⟩ ["1234", "5678"] =
      (["1234"], LTFinal.errored 1 (rangeErrorMsg 1), 1) ∧
    ltRun (1 : Int) ⟨true⟩ (["1234", "5678"] ++ ["x"]) =
      ltRun (1 : Int) ⟨true⟩ ["1234", "5678"] := by
  have h := limitedTransform_errorMode 1 (by decide) ["1234", "5678"] (by decide)
  exact ⟨by simpa using h.1, h.2 ["x"]⟩

/-- C10: the constructor performs no validation of size — for size ≤ 0 the
very first chunk already takes the over-limit branch, so the output holds
zero chunks: the stream terminates cleanly on the first chunk when the error
option is off and fails with the RangeError for that size when it is on. -/
theorem limitedTransform_nonpositiveSize {T : Type} (size : Int)
    (hsize : size ≤ 0) (c : T) (cs : List T) :
    ltRun size ⟨false⟩ (c :: cs) = ([], LTFinal.terminated, 0) ∧
    ltRun size ⟨true⟩ (c :: cs) =
      ([], LTFinal.errored size (rangeErrorMsg size), 0) ∧
    ltTransform size ⟨false⟩ 0 c = LTStep.terminated ∧
    ltTransform size ⟨true⟩ 0 c = LTStep.errored size (rangeErrorMsg size) := by
  have hcond : size < 0 + 1 := by omega
  have hf : ltTransform size ⟨false⟩ 0 c = LTStep.terminated := by
    unfold ltTransform
    rw [if_pos hcond]
    simp
  have ht : ltTransform size ⟨true⟩ 0 c =
      LTStep.errored size (rangeErrorMsg size) := by
    unfold ltTransform
    rw [if_pos hcond]
    simp
  refine ⟨?_, ?_, hf, ht⟩
  · unfold ltRun
    simp [ltRunAux, hf]
  · unfold ltRun
    simp [ltRunAux, ht]

/-- Witness for C10: size -2 — the first chunk is dropped and the stream
terminates (silent mode) or fails with the RangeError carrying -2 (error
mode). -/
theorem limitedTransform_nonpositiveSize_witness :
    ltRun (-2 : Int) ⟨false⟩ ["x", "y"] = ([], LTFinal.terminated, 0) ∧
    ltRun (-2 : Int) ⟨true⟩ ["x", "y"] =
      ([], LTFinal.errored (-2) (rangeErrorMsg (-2)), 0) := by
  have h := limitedTransform_nonpositiveSize (-2 : Int) (by omega) "x" ["y"]
  exact ⟨h.1, h.2.1⟩
